import Mathlib

/-!
Verification of the `CommentParser` comment-extraction engine
(`comment_parsing.py`): a dialect-aware scanner that walks a source text
once, skips string/char literals, and collects comment regions.

The Python implementation compiles, per dialect, the regular expression
`(SKIP)|(KEEP)` (with `re.MULTILINE`) where `SKIP` and `KEEP` are
alternations of fixed sub-patterns, and runs `re.finditer` over the input,
appending `match.group(2)` (the comment) whenever it is non-empty.

Each sub-pattern of the alternation is deterministic (character classes,
fixed delimiters, and lazy repetitions whose first success is forced), so
every alternative denotes a function from a suffix of the input to
`Option Nat`: `none` when the alternative fails at that position, and
`some n` when it matches exactly the next `n` characters.  The shallow
embedding below implements each alternative as such a function:

* `quotedBody`/`matchQuoted` embed `"(?:\\.|[^"\\])*"` and its
  single-quote / backtick / strict (triple-quote-excluding,
  `"(?!"")(?:\\.|[^"\\])*"`) variants.  Without `re.DOTALL` the `.` in
  `\\.` matches any character except a line feed, so a backslash
  followed by a line feed (or by end of input) cannot be consumed by the
  body, and the alternative then fails (the closing-quote position would
  hold a backslash).
* `findSub` embeds a lazy `[\s\S]*?` followed by a fixed closing token:
  it consumes up to and including the earliest occurrence of the token,
  failing when the token never occurs.
* `matchTriple` embeds `"""[\s\S]*?"""` / `'''[\s\S]*?'''`,
  `matchBlock` embeds `/\*[\s\S]*?\*/`.
* `matchLine` embeds `//.*?$` and `#.*?$` under `re.MULTILINE`: the lazy
  body stops at the first position where `$` holds, i.e. just before the
  next line feed or at end of input.

`firstMatch` is the left-to-right alternation `(SKIP)|(KEEP)` at one
position; `scanAux`/`scanMatches` is `re.finditer`: try the pattern at
each position, and after a successful match resume immediately past it
(the fuel argument is the loop variant; `l.length` steps always
suffice).  `extract_comments` keeps the `group(2)` (comment) matches.
-/

namespace CommentParsing

/-- Double-quote character, `"` (U+0022). -/
def dqc : Char := Char.ofNat 34

/-- Single-quote character, `'` (U+0027). -/
def sqc : Char := Char.ofNat 39

/-- Backtick character (U+0060). -/
def btc : Char := Char.ofNat 96

/-- Backslash character, `\` (U+005C). -/
def bsc : Char := Char.ofNat 92

/-- Line-feed character (U+000A); the only character `.` does not match
without `re.DOTALL`, and the position before which `$` holds under
`re.MULTILINE`. -/
def nlc : Char := Char.ofNat 10

/-- One alternative of the compiled pattern: at the head of the given
suffix of the input, either fail or consume a positive number of
characters. -/
abbrev Matcher := List Char → Option Nat

/-- Body and closing delimiter of a quoted literal, after the opening
delimiter `d` has been consumed: the greedy loop `(?:\\.|[^d\\])*`
followed by `d`.  At each step exactly one branch of the loop can apply
(a backslash is only consumed by `\\.`, which requires a following
non-line-feed character; `d` stops the loop), so the regex is this
deterministic recursion.  Returns the number of characters consumed,
including the closing delimiter. -/
def quotedBody (d : Char) : List Char → Option Nat
  | [] => none
  | [c] => if c = d then some 1 else none
  | c :: c2 :: rest =>
    if c = d then some 1
    else if c = bsc then
      (if c2 = nlc then none else (quotedBody d rest).map (· + 2))
    else (quotedBody d (c2 :: rest)).map (· + 1)

/-- The negative-lookahead test of the strict quoted-string patterns:
after the opening delimiter, are the next two characters both `d`
(so that the opening would be the start of a triple quote)? -/
def tripleAhead (d : Char) : List Char → Bool
  | a :: b :: _ => a = d && b = d
  | _ => false

/-- A quoted-string literal with delimiter `d`:
`d(?:\\.|[^d\\])*d`, with the Python-only strict variant carrying the
negative lookahead `(?!dd)` right after the opening delimiter. -/
def matchQuoted (d : Char) (strict : Bool) : Matcher
  | [] => none
  | c :: rest =>
    if c = d then
      if strict && tripleAhead d rest then none
      else (quotedBody d rest).map (· + 1)
    else none

/-- Lazy search `[\s\S]*?pat`: consume up to and including the earliest
occurrence of `pat`; fail when `pat` does not occur (a lazy repetition
retries the closing token one position further each time, so the first,
i.e. earliest, occurrence wins). -/
def findSub (pat : List Char) : List Char → Option Nat
  | [] => if pat = [] then some 0 else none
  | c :: rest =>
    if pat.isPrefixOf (c :: rest) then some pat.length
    else (findSub pat rest).map (· + 1)

/-- Triple-quoted block `qqq[\s\S]*?qqq` (Python keep rule). -/
def matchTriple (q : Char) : Matcher
  | a :: b :: c :: rest =>
    if a = q && b = q && c = q then (findSub [q, q, q] rest).map (· + 3) else none
  | _ => none

/-- Block comment `/\*[\s\S]*?\*/`. -/
def matchBlock : Matcher
  | c1 :: c2 :: rest =>
    if c1 = '/' && c2 = '*' then (findSub ['*', '/'] rest).map (· + 2) else none
  | _ => none

/-- Line comment `tok.*?$` under `re.MULTILINE`: the start token, then
everything up to (excluding) the next line feed or to end of input. -/
def matchLine (tok : List Char) : Matcher := fun l =>
  if tok.isPrefixOf l then
    some (tok.length + ((l.drop tok.length).takeWhile (fun c => c != nlc)).length)
  else none

/-- Regex component `self._double_quotes`. -/
def double_quotes : Matcher := matchQuoted dqc false

/-- Regex component `self._single_quotes`. -/
def single_quotes : Matcher := matchQuoted sqc false

/-- Regex component `self._double_quotes_strict`. -/
def double_quotes_strict : Matcher := matchQuoted dqc true

/-- Regex component `self._single_quotes_strict`. -/
def single_quotes_strict : Matcher := matchQuoted sqc true

/-- Regex component `self._backticks`. -/
def backticks : Matcher := matchQuoted btc false

/-- Regex component `self._py_triple_double`. -/
def py_triple_double : Matcher := matchTriple dqc

/-- Regex component `self._py_triple_single`. -/
def py_triple_single : Matcher := matchTriple sqc

/-- Regex component `self._slash_slash`. -/
def slash_slash : Matcher := matchLine ['/', '/']

/-- Regex component `self._slash_star`. -/
def slash_star : Matcher := matchBlock

/-- Regex component `self._hash`. -/
def hash : Matcher := matchLine ['#']

/-- The four distinct rule sets built by `_get_pattern` (the four
branches of its dialect dispatch). -/
inductive Dialect
  | python
  | cstyle
  | jsgo
  | php
deriving DecidableEq

/-- The `skippable` alternation of `_get_pattern`, in source order. -/
def skippable : Dialect → List Matcher
  | .python => [double_quotes_strict, single_quotes_strict]
  | .cstyle => [double_quotes, single_quotes]
  | .jsgo => [double_quotes, single_quotes, backticks]
  | .php => [double_quotes, single_quotes]

/-- The `keepable` alternation of `_get_pattern`, in source order. -/
def keepable : Dialect → List Matcher
  | .python => [hash, py_triple_double, py_triple_single]
  | .cstyle => [slash_slash, slash_star]
  | .jsgo => [slash_slash, slash_star]
  | .php => [slash_slash, hash, slash_star]

/-- The comment start tokens of each dialect's keep rules. -/
def keepTokens : Dialect → List (List Char)
  | .python => [['#'], [dqc, dqc, dqc], [sqc, sqc, sqc]]
  | .cstyle => [['/', '/'], ['/', '*']]
  | .jsgo => [['/', '/'], ['/', '*']]
  | .php => [['/', '/'], ['#'], ['/', '*']]

/-- The combined pattern `(SKIP)|(KEEP)`: skip alternatives first (tagged
`false`), then keep alternatives (tagged `true`), each class in source
order. -/
def dialectAlts (d : Dialect) : List (Bool × Matcher) :=
  (skippable d).map (fun m => (false, m)) ++ (keepable d).map (fun m => (true, m))

/-- The alternation at one position: the first alternative, in order,
that matches, together with its class tag. -/
def firstMatch (alts : List (Bool × Matcher)) (l : List Char) : Option (Bool × Nat) :=
  match alts with
  | [] => none
  | (k, m) :: rest =>
    match m l with
    | some n => some (k, n)
    | none => firstMatch rest l

/-- The `re.finditer` loop: at each position try the combined pattern;
on failure advance one character, on a match of `n` characters record
`(class, start, n)` and resume past it (a zero-width match would be
recorded and scanning resumed one position further, as `finditer` does;
no alternative of this pattern can match zero characters).  `fuel`
bounds the number of loop iterations; `l.length` always suffices. -/
def scanAux (alts : List (Bool × Matcher)) : Nat → Nat → List Char → List (Bool × Nat × Nat)
  | 0, _, _ => []
  | _ + 1, _, [] => []
  | fuel + 1, pos, c :: rest =>
    match firstMatch alts (c :: rest) with
    | none => scanAux alts fuel (pos + 1) rest
    | some (k, n) =>
      if n = 0 then scanAux alts fuel (pos + 1) rest
      else (k, pos, n) :: scanAux alts fuel (pos + n) ((c :: rest).drop n)

/-- All matches of `re.finditer(pattern, code)` with their class tag,
start offset and length. -/
def scanMatches (alts : List (Bool × Matcher)) (pos : Nat) (l : List Char) :
    List (Bool × Nat × Nat) :=
  scanAux alts l.length pos l

/-- The regions whose matches the extractor keeps: spans of the matches
of group 2 (`match.group(2)` non-empty in the source loop). -/
def keepRegions (alts : List (Bool × Matcher)) (l : List Char) : List (Nat × Nat) :=
  (scanMatches alts 0 l).filterMap (fun r => if r.1 then some (r.2.1, r.2.2) else none)

/-- The text of a match: the span's characters of the input. -/
def sliceStr (code : String) (r : Nat × Nat) : String :=
  String.mk ((code.toList.drop r.1).take r.2)

/-- ASCII lowering of a dialect name: the `language.lower()` call of
`_get_pattern` (dialect names are ASCII, on which Python's `str.lower`
is exactly per-character ASCII lowering). -/
def lowerName (s : String) : String :=
  String.mk (s.toList.map Char.toLower)

/-- The dialect names accepted by `_get_pattern`. -/
def supportedLanguages : List String :=
  ["python", "c", "c++", "java", "c#", "js", "go", "javascript", "php"]

/-- The dialect dispatch of `_get_pattern`: lower the name, compare
against the built-in groups, `none` for the `raise ValueError` branch. -/
def getDialect (language : String) : Option Dialect :=
  let lang := lowerName language
  if lang = "python" then some Dialect.python
  else if lang = "c" ∨ lang = "c++" ∨ lang = "java" ∨ lang = "c#" then some Dialect.cstyle
  else if lang = "js" ∨ lang = "go" ∨ lang = "javascript" then some Dialect.jsgo
  else if lang = "php" then some Dialect.php
  else none

/-- `CommentParser.extract_comments`: resolve the dialect (`Except.error
language` models the `ValueError`, the one error of the module, carrying
the offending name), run the scan, and return the kept matches' texts in
source order. -/
def extract_comments (code : String) (language : String) : Except String (List String) :=
  match getDialect language with
  | none => Except.error language
  | some d => Except.ok ((keepRegions (dialectAlts d) code.toList).map (sliceStr code))

/-! Basic facts about the individual alternatives. -/

theorem isPrefixOf_eq_true_iff {l₁ l₂ : List Char} : l₁.isPrefixOf l₂ = true ↔ l₁ <+: l₂ :=
  List.isPrefixOf_iff_prefix

theorem length_takeWhile_le' (p : Char → Bool) : ∀ l : List Char, (l.takeWhile p).length ≤ l.length := by
  intro l
  induction l with
  | nil => simp
  | cons c rest ih =>
    rw [List.takeWhile_cons]
    split
    · simpa using ih
    · simp

theorem quotedBody_bound (d : Char) : ∀ (l : List Char) (m : Nat),
    quotedBody d l = some m → 1 ≤ m ∧ m ≤ l.length
  | [], m, h => by simp [quotedBody] at h
  | [c], m, h => by
    by_cases hc : c = d
    · simp only [quotedBody, if_pos hc, Option.some.injEq] at h
      simp only [List.length_singleton]
      omega
    · simp only [quotedBody, if_neg hc] at h
      simp at h
  | c :: c2 :: rest, m, h => by
    by_cases hc : c = d
    · simp only [quotedBody, if_pos hc, Option.some.injEq] at h
      simp only [List.length_cons]
      omega
    · by_cases hb : c = bsc
      · by_cases hnl : c2 = nlc
        · simp only [quotedBody, if_neg hc, if_pos hb, if_pos hnl] at h
          simp at h
        · simp only [quotedBody, if_neg hc, if_pos hb, if_neg hnl, Option.map_eq_some'] at h
          obtain ⟨m', hm', rfl⟩ := h
          have := quotedBody_bound d rest m' hm'
          simp only [List.length_cons]
          omega
      · simp only [quotedBody, if_neg hc, if_neg hb, Option.map_eq_some'] at h
        obtain ⟨m', hm', rfl⟩ := h
        have := quotedBody_bound d (c2 :: rest) m' hm'
        simp only [List.length_cons] at this ⊢
        omega

theorem matchQuoted_bound (d : Char) (strict : Bool) : ∀ (l : List Char) (n : Nat),
    matchQuoted d strict l = some n → 1 ≤ n ∧ n ≤ l.length := by
  intro l n h
  cases l with
  | nil => simp [matchQuoted] at h
  | cons c rest =>
    simp only [matchQuoted] at h
    split at h
    · split at h
      · simp at h
      · simp only [Option.map_eq_some'] at h
        obtain ⟨m, hm, rfl⟩ := h
        have := quotedBody_bound d rest m hm
        simp only [List.length_cons]
        omega
    · simp at h

theorem findSub_bound (pat : List Char) : ∀ (l : List Char) (m : Nat),
    findSub pat l = some m → pat.length ≤ m ∧ m ≤ l.length
  | [], m, h => by
    simp only [findSub] at h
    split at h
    · simp_all
    · simp at h
  | c :: rest, m, h => by
    simp only [findSub] at h
    split at h
    case isTrue hp =>
      have hle := (isPrefixOf_eq_true_iff.1 hp).length_le
      cases h
      simp only [List.length_cons] at hle ⊢
      omega
    case isFalse =>
      simp only [Option.map_eq_some'] at h
      obtain ⟨m', hm', rfl⟩ := h
      have := findSub_bound pat rest m' hm'
      simp only [List.length_cons]
      omega

theorem matchTriple_bound (q : Char) : ∀ (l : List Char) (n : Nat),
    matchTriple q l = some n → 1 ≤ n ∧ n ≤ l.length := by
  intro l n h
  match l with
  | [] => simp [matchTriple] at h
  | [a] => simp [matchTriple] at h
  | [a, b] => simp [matchTriple] at h
  | a :: b :: c :: rest =>
    simp only [matchTriple] at h
    split at h
    · simp only [Option.map_eq_some'] at h
      obtain ⟨m, hm, rfl⟩ := h
      have := findSub_bound [q, q, q] rest m hm
      simp only [List.length_cons]
      omega
    · simp at h

theorem matchBlock_bound : ∀ (l : List Char) (n : Nat),
    matchBlock l = some n → 1 ≤ n ∧ n ≤ l.length := by
  intro l n h
  match l with
  | [] => simp [matchBlock] at h
  | [a] => simp [matchBlock] at h
  | c1 :: c2 :: rest =>
    simp only [matchBlock] at h
    split at h
    · simp only [Option.map_eq_some'] at h
      obtain ⟨m, hm, rfl⟩ := h
      have := findSub_bound ['*', '/'] rest m hm
      simp only [List.length_cons]
      omega
    · simp at h

theorem matchLine_bound (tok : List Char) (htok : tok ≠ []) : ∀ (l : List Char) (n : Nat),
    matchLine tok l = some n → 1 ≤ n ∧ n ≤ l.length := by
  intro l n h
  simp only [matchLine] at h
  split at h
  case isTrue hp =>
    cases h
    have h1 := (isPrefixOf_eq_true_iff.1 hp).length_le
    have h2 := length_takeWhile_le' (fun c => c != nlc) (l.drop tok.length)
    have h3 : (l.drop tok.length).length = l.length - tok.length := List.length_drop _ _
    have h4 : 1 ≤ tok.length := List.length_pos.2 htok
    omega
  case isFalse => simp at h

theorem prefix_take_of_le {l₁ l₂ : List Char} {n : Nat} (h : l₁ <+: l₂) (hn : l₁.length ≤ n) :
    l₁ <+: l₂.take n := by
  obtain ⟨t, rfl⟩ := h
  refine ⟨t.take (n - l₁.length), ?_⟩
  rw [List.take_append_eq_append_take, List.take_of_length_le hn]

theorem matchLine_tok (tok : List Char) (l : List Char) (n : Nat) (h : matchLine tok l = some n) :
    tok <+: l.take n := by
  simp only [matchLine] at h
  split at h
  case isTrue hp =>
    cases h
    exact prefix_take_of_le (isPrefixOf_eq_true_iff.1 hp) (by omega)
  case isFalse => simp at h

theorem matchTriple_tok (q : Char) (l : List Char) (n : Nat) (h : matchTriple q l = some n) :
    [q, q, q] <+: l.take n := by
  match l with
  | [] => simp [matchTriple] at h
  | [a] => simp [matchTriple] at h
  | [a, b] => simp [matchTriple] at h
  | a :: b :: c :: rest =>
    simp only [matchTriple] at h
    split at h
    case isTrue hq =>
      simp only [Bool.and_eq_true, decide_eq_true_eq] at hq
      obtain ⟨⟨rfl, rfl⟩, rfl⟩ := hq
      simp only [Option.map_eq_some'] at h
      obtain ⟨m, hm, rfl⟩ := h
      exact prefix_take_of_le ⟨rest, rfl⟩ (by simp)
    case isFalse => simp at h

theorem matchBlock_tok (l : List Char) (n : Nat) (h : matchBlock l = some n) :
    ['/', '*'] <+: l.take n := by
  match l with
  | [] => simp [matchBlock] at h
  | [a] => simp [matchBlock] at h
  | c1 :: c2 :: rest =>
    simp only [matchBlock] at h
    split at h
    case isTrue hq =>
      simp only [Bool.and_eq_true, decide_eq_true_eq] at hq
      obtain ⟨rfl, rfl⟩ := hq
      simp only [Option.map_eq_some'] at h
      obtain ⟨m, hm, rfl⟩ := h
      exact prefix_take_of_le ⟨rest, rfl⟩ (by simp)
    case isFalse => simp at h

/-! Facts about whole rule sets. -/

theorem alts_good (d : Dialect) : ∀ a ∈ dialectAlts d, ∀ (l : List Char) (n : Nat),
    a.2 l = some n → 1 ≤ n ∧ n ≤ l.length := by
  intro a ha l n h
  cases d <;>
    simp only [dialectAlts, skippable, keepable, List.map_cons, List.map_nil, List.cons_append,
      List.nil_append, List.mem_cons, List.not_mem_nil, or_false] at ha <;>
    rcases ha with rfl | rfl | rfl | rfl | rfl <;>
    simp only [double_quotes, single_quotes, double_quotes_strict, single_quotes_strict,
      backticks, hash, py_triple_double, py_triple_single, slash_slash, slash_star] at h <;>
    first
      | exact matchQuoted_bound _ _ l n h
      | exact matchTriple_bound _ l n h
      | exact matchBlock_bound l n h
      | exact matchLine_bound _ (by simp) l n h

theorem keepable_tok (d : Dialect) : ∀ m ∈ keepable d, ∀ (l : List Char) (n : Nat),
    m l = some n → ∃ tok ∈ keepTokens d, tok <+: l.take n := by
  intro m hm l n h
  cases d <;>
    simp only [keepable, List.mem_cons, List.not_mem_nil, or_false] at hm <;>
    rcases hm with rfl | rfl | rfl <;>
    simp only [hash, py_triple_double, py_triple_single, slash_slash, slash_star] at h <;>
    simp only [keepTokens, List.mem_cons, List.not_mem_nil, or_false]
  · exact ⟨['#'], Or.inl rfl, matchLine_tok _ l n h⟩
  · exact ⟨[dqc, dqc, dqc], Or.inr (Or.inl rfl), matchTriple_tok _ l n h⟩
  · exact ⟨[sqc, sqc, sqc], Or.inr (Or.inr rfl), matchTriple_tok _ l n h⟩
  · exact ⟨['/', '/'], Or.inl rfl, matchLine_tok _ l n h⟩
  · exact ⟨['/', '*'], Or.inr rfl, matchBlock_tok l n h⟩
  · exact ⟨['/', '/'], Or.inl rfl, matchLine_tok _ l n h⟩
  · exact ⟨['/', '*'], Or.inr rfl, matchBlock_tok l n h⟩
  · exact ⟨['/', '/'], Or.inl rfl, matchLine_tok _ l n h⟩
  · exact ⟨['#'], Or.inr (Or.inl rfl), matchLine_tok _ l n h⟩
  · exact ⟨['/', '*'], Or.inr (Or.inr rfl), matchBlock_tok l n h⟩

/-! Facts about the combined alternation and the finditer loop. -/

theorem firstMatch_mem (alts : List (Bool × Matcher)) : ∀ (l : List Char) (k : Bool) (n : Nat),
    firstMatch alts l = some (k, n) → ∃ a ∈ alts, a.1 = k ∧ a.2 l = some n := by
  induction alts with
  | nil => intro l k n h; simp [firstMatch] at h
  | cons a rest ih =>
    intro l k n h
    obtain ⟨ka, ma⟩ := a
    simp only [firstMatch] at h
    split at h
    case h_1 n' heq =>
      simp only [Option.some.injEq, Prod.mk.injEq] at h
      exact ⟨(ka, ma), List.mem_cons_self _ _, h.1, by show ma l = some n; rw [heq, h.2]⟩
    case h_2 heq =>
      obtain ⟨a', ha', hk, hl⟩ := ih l k n h
      exact ⟨a', List.mem_cons_of_mem _ ha', hk, hl⟩

theorem firstMatch_append_skips (ms : List Matcher) (rest : List (Bool × Matcher)) :
    ∀ l : List Char, (∃ m ∈ ms, (m l).isSome = true) →
    ∃ n, firstMatch (ms.map (fun m => (false, m)) ++ rest) l = some (false, n) := by
  induction ms with
  | nil => intro l h; simp at h
  | cons m0 ms ih =>
    intro l h
    simp only [List.map_cons, List.cons_append, firstMatch]
    cases hm0 : m0 l with
    | some n => exact ⟨n, rfl⟩
    | none =>
      obtain ⟨m, hm, hs⟩ := h
      rcases List.mem_cons.1 hm with rfl | hm'
      · rw [hm0] at hs; simp at hs
      · exact ih l ⟨m, hm', hs⟩

theorem scanAux_nil (alts : List (Bool × Matcher)) (fuel pos : Nat) :
    scanAux alts fuel pos [] = [] := by
  cases fuel <;> simp [scanAux]

theorem scanAux_spec (alts : List (Bool × Matcher))
    (hG : ∀ a ∈ alts, ∀ (l : List Char) (n : Nat), a.2 l = some n → 1 ≤ n ∧ n ≤ l.length) :
    ∀ (fuel pos : Nat) (l : List Char) (r : Bool × Nat × Nat), r ∈ scanAux alts fuel pos l →
      pos ≤ r.2.1 ∧ r.2.1 + r.2.2 ≤ pos + l.length ∧ 1 ≤ r.2.2 ∧
      firstMatch alts (l.drop (r.2.1 - pos)) = some (r.1, r.2.2) := by
  intro fuel
  induction fuel with
  | zero => intro pos l r hr; simp [scanAux] at hr
  | succ fuel ih =>
    intro pos l r hr
    cases l with
    | nil => simp [scanAux] at hr
    | cons c rest =>
      simp only [scanAux] at hr
      split at hr
      case h_1 hfm =>
        obtain ⟨h1, h2, h3, h4⟩ := ih (pos + 1) rest r hr
        refine ⟨by omega, by simp only [List.length_cons]; omega, h3, ?_⟩
        have harith : r.2.1 - pos = (r.2.1 - (pos + 1)) + 1 := by omega
        rw [harith, List.drop_succ_cons]
        exact h4
      case h_2 k0 n hfm =>
        split at hr
        case isTrue =>
          obtain ⟨h1, h2, h3, h4⟩ := ih (pos + 1) rest r hr
          refine ⟨by omega, by simp only [List.length_cons]; omega, h3, ?_⟩
          have harith : r.2.1 - pos = (r.2.1 - (pos + 1)) + 1 := by omega
          rw [harith, List.drop_succ_cons]
          exact h4
        case isFalse hn =>
          have hnle : n ≤ (c :: rest).length := by
            obtain ⟨a, ha, hak, hal⟩ := firstMatch_mem alts _ _ _ hfm
            exact (hG a ha _ _ hal).2
          rcases List.mem_cons.1 hr with rfl | hr'
          · refine ⟨le_refl pos, ?_, ?_, ?_⟩
            · show pos + n ≤ pos + (c :: rest).length
              omega
            · show 1 ≤ n
              omega
            · show firstMatch alts ((c :: rest).drop (pos - pos)) = some (k0, n)
              simp only [Nat.sub_self, List.drop_zero]
              exact hfm
          · obtain ⟨h1, h2, h3, h4⟩ := ih (pos + n) ((c :: rest).drop n) r hr'
            have hdlen : ((c :: rest).drop n).length = (c :: rest).length - n :=
              List.length_drop _ _
            refine ⟨by omega, by omega, h3, ?_⟩
            rw [List.drop_drop] at h4
            have harith : n + (r.2.1 - (pos + n)) = r.2.1 - pos := by omega
            rw [harith] at h4
            exact h4

theorem scanAux_pairwise (alts : List (Bool × Matcher))
    (hG : ∀ a ∈ alts, ∀ (l : List Char) (n : Nat), a.2 l = some n → 1 ≤ n ∧ n ≤ l.length) :
    ∀ (fuel pos : Nat) (l : List Char),
      (scanAux alts fuel pos l).Pairwise (fun a b => a.2.1 + a.2.2 ≤ b.2.1) := by
  intro fuel
  induction fuel with
  | zero => intro pos l; simp [scanAux]
  | succ fuel ih =>
    intro pos l
    cases l with
    | nil => simp [scanAux]
    | cons c rest =>
      simp only [scanAux]
      split
      case h_1 => exact ih (pos + 1) rest
      case h_2 k0 n hfm =>
        split
        case isTrue => exact ih (pos + 1) rest
        case isFalse hn =>
          refine List.pairwise_cons.2 ⟨?_, ih (pos + n) _⟩
          intro b hb
          exact (scanAux_spec alts hG fuel (pos + n) _ b hb).1

theorem scanAux_congr (alts : List (Bool × Matcher)) :
    ∀ (f1 f2 pos : Nat) (l : List Char), l.length ≤ f1 → l.length ≤ f2 →
      scanAux alts f1 pos l = scanAux alts f2 pos l := by
  intro f1
  induction f1 with
  | zero =>
    intro f2 pos l h1 h2
    have hl : l = [] := List.eq_nil_of_length_eq_zero (by omega)
    subst hl
    rw [scanAux_nil, scanAux_nil]
  | succ f1 ih =>
    intro f2 pos l h1 h2
    cases l with
    | nil => rw [scanAux_nil, scanAux_nil]
    | cons c rest =>
      cases f2 with
      | zero => simp at h2
      | succ f2 =>
        simp only [scanAux]
        cases hfm : firstMatch alts (c :: rest) with
        | none =>
          simp only [List.length_cons] at h1 h2
          exact ih f2 (pos + 1) rest (by omega) (by omega)
        | some kn =>
          obtain ⟨k0, n⟩ := kn
          simp only [List.length_cons] at h1 h2
          by_cases hn : n = 0
          · simp only [if_pos hn]
            exact ih f2 (pos + 1) rest (by omega) (by omega)
          · simp only [if_neg hn]
            have hdl : ((c :: rest).drop n).length = (c :: rest).length - n :=
              List.length_drop _ _
            simp only [List.length_cons] at hdl
            refine congrArg _ (ih f2 (pos + n) ((c :: rest).drop n) (by omega) (by omega))

theorem scanMatches_cons (alts : List (Bool × Matcher)) (pos n : Nat) (c : Char)
    (rest : List Char) (k : Bool) (hn : n ≠ 0)
    (hfm : firstMatch alts (c :: rest) = some (k, n)) :
    scanMatches alts pos (c :: rest) =
      (k, pos, n) :: scanMatches alts (pos + n) ((c :: rest).drop n) := by
  unfold scanMatches
  simp only [List.length_cons, scanAux, hfm, if_neg hn]
  refine congrArg _ (scanAux_congr alts rest.length _ (pos + n) _ ?_ (le_refl _))
  have hdl : ((c :: rest).drop n).length = (c :: rest).length - n := List.length_drop _ _
  simp only [List.length_cons] at hdl
  omega

theorem findSub_some_occurs (pat : List Char) : ∀ (l : List Char) (m : Nat),
    findSub pat l = some m → pat <:+: l
  | [], m, h => by
    simp only [findSub] at h
    split at h
    case isTrue hp => subst hp; exact ⟨[], [], rfl⟩
    case isFalse => simp at h
  | c :: rest, m, h => by
    simp only [findSub] at h
    split at h
    case isTrue hp =>
      obtain ⟨t, ht⟩ := isPrefixOf_eq_true_iff.1 hp
      exact ⟨[], t, by simpa using ht⟩
    case isFalse =>
      simp only [Option.map_eq_some'] at h
      obtain ⟨m', hm', rfl⟩ := h
      obtain ⟨s, t, hst⟩ := findSub_some_occurs pat rest m' hm'
      exact ⟨c :: s, t, by simp [hst]⟩

theorem pairwise_filterMap {α β : Type} (f : α → Option β) {R : α → α → Prop}
    {S : β → β → Prop}
    (hf : ∀ a b, R a b → ∀ x, f a = some x → ∀ y, f b = some y → S x y) :
    ∀ l : List α, l.Pairwise R → (l.filterMap f).Pairwise S := by
  intro l hl
  induction hl with
  | nil => simp
  | @cons a l ha htl ih =>
    cases hfa : f a with
    | none => simpa [List.filterMap_cons, hfa] using ih
    | some x =>
      simp only [List.filterMap_cons, hfa]
      refine List.pairwise_cons.2 ⟨?_, ih⟩
      intro y hy
      obtain ⟨b, hb, hfb⟩ := List.mem_filterMap.1 hy
      exact hf a b (ha b hb) x hfa y hfb

theorem matchTriple_shape (q : Char) (l : List Char) (n : Nat) (h : matchTriple q l = some n) :
    ∃ rest', l = q :: q :: q :: rest' := by
  match l with
  | [] => simp [matchTriple] at h
  | [a] => simp [matchTriple] at h
  | [a, b] => simp [matchTriple] at h
  | a :: b :: c :: rest' =>
    simp only [matchTriple] at h
    split at h
    case isTrue hc =>
      simp only [Bool.and_eq_true, decide_eq_true_eq] at hc
      obtain ⟨⟨rfl, rfl⟩, rfl⟩ := hc
      exact ⟨rest', rfl⟩
    case isFalse => simp at h

/-! Claim theorems. -/

/-- Claim C3 (confirmed): for every language string whose lowering is not
one of the nine supported names, `extract_comments` fails, for every
input, with the module's one error carrying the offending name (the
`ValueError` of `_get_pattern`, raised from dialect resolution before
any scanning), and no result list is produced; dialect resolution
itself yields nothing. -/
theorem C3_unsupported_dialect : ∀ (code language : String),
    lowerName language ∉ supportedLanguages →
    extract_comments code language = Except.error language ∧ getDialect language = none := by
  intro code language h
  simp only [supportedLanguages, List.mem_cons, List.not_mem_nil, or_false, not_or] at h
  obtain ⟨h1, h2, h3, h4, h5, h6, h7, h8, h9⟩ := h
  have hd : getDialect language = none := by
    have hunfold : getDialect language =
        (if lowerName language = "python" then some Dialect.python
         else if lowerName language = "c" ∨ lowerName language = "c++" ∨
             lowerName language = "java" ∨ lowerName language = "c#" then some Dialect.cstyle
         else if lowerName language = "js" ∨ lowerName language = "go" ∨
             lowerName language = "javascript" then some Dialect.jsgo
         else if lowerName language = "php" then some Dialect.php
         else none) := rfl
    rw [hunfold, if_neg h1, if_neg (by push_neg; exact ⟨h2, h3, h4, h5⟩),
      if_neg (by push_neg; exact ⟨h6, h7, h8⟩), if_neg h9]
  refine ⟨?_, hd⟩
  simp [extract_comments, hd]

/-- Witness for C3 at the concrete unsupported name `cobol`. -/
theorem C3_unsupported_dialect_witness :
    lowerName "cobol" ∉ supportedLanguages ∧
    extract_comments "x = 1" "cobol" = Except.error "cobol" :=
  ⟨by decide, (C3_unsupported_dialect "x = 1" "cobol" (by decide)).1⟩

/-- Claim C9 (confirmed): language strings equal up to letter case (their
ASCII lowerings coincide, as computed by `language.lower()`) resolve to
the same rule set, and whenever they resolve, `extract_comments` returns
identical ordered results on every input. -/
theorem C9_case_insensitive : ∀ (code l1 l2 : String),
    lowerName l1 = lowerName l2 →
    getDialect l1 = getDialect l2 ∧
    ∀ d : Dialect, getDialect l1 = some d →
      extract_comments code l1 = extract_comments code l2 := by
  intro code l1 l2 h
  have hg : getDialect l1 = getDialect l2 := by
    simp only [getDialect]
    rw [h]
  refine ⟨hg, ?_⟩
  intro d hd
  have hd2 : getDialect l2 = some d := hg.symm.trans hd
  simp [extract_comments, hd, hd2]

/-- Witness for C9 at `Python` versus `PYTHON`. -/
theorem C9_case_insensitive_witness :
    lowerName "Python" = lowerName "PYTHON" ∧
    getDialect "Python" = getDialect "PYTHON" ∧
    extract_comments "# a" "Python" = extract_comments "# a" "PYTHON" :=
  ⟨by decide, (C9_case_insensitive "# a" "Python" "PYTHON" (by decide)).1,
    (C9_case_insensitive "# a" "Python" "PYTHON" (by decide)).2 Dialect.python (by decide)⟩

/-- Claim C2 (counterexample): the claim asserts that a block comment or
triple-quoted block left unterminated at end of input is matched through
to the end of the input and its text included in the result; on input
`/* abc` with dialect `c` (and `\"\"\"abc` with `python`) the code
instead returns the empty list — the unterminated construct's regex
requires the closing token, so the construct is dropped entirely. -/
theorem C2_counterexample :
    extract_comments "/* abc" "c" = Except.ok [] ∧
    extract_comments "\"\"\"abc" "python" = Except.ok [] :=
  ⟨rfl, rfl⟩

/-- Claim C2 (corrected): a block comment opened with `/*` whose tail
contains no closing `*/`, and a triple-quoted block opened with three
quotes whose tail contains no closing triple, are not matched at all by
their rules — the construct is silently dropped (no error is raised;
its interior is scanned as ordinary text by the remaining rules). -/
theorem C2_unterminated_dropped : ∀ (l : List Char) (q : Char),
    (¬ (['*', '/'] <:+: l.drop 2) → matchBlock l = none) ∧
    (¬ ([q, q, q] <:+: l.drop 3) → matchTriple q l = none) := by
  intro l q
  constructor
  · intro h
    match l with
    | [] => rfl
    | [a] => rfl
    | c1 :: c2 :: rest =>
      simp only [matchBlock]
      split
      case isTrue hc =>
        cases hfs : findSub ['*', '/'] rest with
        | none => simp
        | some m => exact absurd (findSub_some_occurs _ rest m hfs) (by simpa using h)
      case isFalse => rfl
  · intro h
    match l with
    | [] => rfl
    | [a] => rfl
    | [a, b] => rfl
    | a :: b :: c :: rest =>
      simp only [matchTriple]
      split
      case isTrue hc =>
        cases hfs : findSub [q, q, q] rest with
        | none => simp
        | some m => exact absurd (findSub_some_occurs _ rest m hfs) (by simpa using h)
      case isFalse => rfl

/-- Witness for the corrected C2 at `/*ab` and an unterminated
triple-double quote. -/
theorem C2_unterminated_dropped_witness :
    (¬ (['*', '/'] <:+: ("/*ab".toList).drop 2)) ∧ matchBlock ("/*ab".toList) = none ∧
    (¬ ([dqc, dqc, dqc] <:+: ("\"\"\"ab".toList).drop 3)) ∧
    matchTriple dqc ("\"\"\"ab".toList) = none :=
  ⟨by decide, (C2_unterminated_dropped ("/*ab".toList) dqc).1 (by decide),
    by decide, (C2_unterminated_dropped ("\"\"\"ab".toList) dqc).2 (by decide)⟩

/-- Claim C6 (counterexample): the claim asserts that inside a quoted
literal a backslash escapes exactly the next character, whatever that
character is, and that only an unescaped delimiter terminates the
literal.  Under that reading the four-character text `"\⏎"` (quote,
backslash, line feed, quote) is a well-formed literal; the code's rule
rejects it (`.` in `\\.` does not match a line feed without `re.DOTALL`),
and observably, on input `"\⏎//x"` with dialect `c`, a comment `//x"` is
extracted from inside what the claim regards as one literal. -/
theorem C6_counterexample :
    quotedBody dqc [bsc, nlc, dqc] = none ∧
    matchQuoted dqc false ("\"\\\n\"".toList) = none ∧
    extract_comments "\"\\\n//x\"" "c" = Except.ok ["//x\""] :=
  ⟨by decide, by decide, rfl⟩

/-- Claim C6 (corrected): inside a quoted literal a backslash escapes
exactly the immediately following character as an atomic unit provided
that character is not a line feed — in particular an escaped delimiter
never terminates the literal; a backslash immediately followed by a line
feed, or standing at end of input, makes the quoted-string rule fail to
match the literal altogether. -/
theorem C6_escape_atomicity : ∀ (d c : Char) (rest : List Char),
    (d ≠ bsc → c ≠ nlc → quotedBody d (bsc :: c :: rest) = (quotedBody d rest).map (· + 2)) ∧
    (d ≠ bsc → d ≠ nlc → matchQuoted d false (d :: bsc :: d :: rest) =
      (quotedBody d rest).map (· + 3)) ∧
    (d ≠ bsc → quotedBody d (bsc :: nlc :: rest) = none) ∧
    (d ≠ bsc → quotedBody d [bsc] = none) := by
  intro d c rest
  have atomic : ∀ (c' : Char) (r : List Char), d ≠ bsc → c' ≠ nlc →
      quotedBody d (bsc :: c' :: r) = (quotedBody d r).map (· + 2) := by
    intro c' r hd hc
    have hbd : ¬ (bsc = d) := fun h => hd h.symm
    simp [quotedBody, hbd, hc]
  refine ⟨atomic c rest, ?_, ?_, ?_⟩
  · intro hd hnl
    have hstrict : (false && tripleAhead d (bsc :: d :: rest)) = false := Bool.false_and _
    simp only [matchQuoted, if_pos rfl, hstrict, Bool.false_eq_true, if_false]
    rw [atomic d rest hd hnl]
    cases quotedBody d rest <;> rfl
  · intro hd
    have hbd : ¬ (bsc = d) := fun h => hd h.symm
    simp [quotedBody, hbd]
  · intro hd
    have hbd : ¬ (bsc = d) := fun h => hd h.symm
    simp [quotedBody, hbd]

/-- Witness for the corrected C6: with delimiter `"` the pair `\"` is
consumed atomically and the escaped delimiter does not terminate the
literal `"a\"b"`, while `"\⏎` fails. -/
theorem C6_escape_atomicity_witness :
    quotedBody dqc (bsc :: dqc :: ("b\"".toList)) = (quotedBody dqc ("b\"".toList)).map (· + 2) ∧
    matchQuoted dqc false (dqc :: bsc :: dqc :: ("b\"".toList)) =
      (quotedBody dqc ("b\"".toList)).map (· + 3) ∧
    quotedBody dqc (bsc :: nlc :: ("b\"".toList)) = none ∧
    quotedBody dqc [bsc] = none :=
  ⟨(C6_escape_atomicity dqc dqc ("b\"".toList)).1 (by decide) (by decide),
    (C6_escape_atomicity dqc dqc ("b\"".toList)).2.1 (by decide) (by decide),
    (C6_escape_atomicity dqc dqc ("b\"".toList)).2.2.1 (by decide),
    (C6_escape_atomicity dqc dqc ("b\"".toList)).2.2.2 (by decide)⟩

/-- Claim C7 (confirmed): Scenario B — on the four-line C++ input the
extractor returns exactly the line comment, the trailing line comment
(the `//` inside the string literal is skipped), and the block comment
spanning its internal line break, in that order; line comments exclude
their terminating line break. -/
theorem C7_scenario_b :
    extract_comments
      "// line\nchar* s = \"http://x.com\"; // trailing\n/* block\n   comment */" "c++" =
      Except.ok ["// line", "// trailing", "/* block\n   comment */"] :=
  rfl

/-- Claim C8 (confirmed): for every language resolving to a built-in
dialect, `extract_comments` is total: on every input (including empty
input and unterminated constructs) it returns a result list and raises
nothing; the empty input yields the empty list; and the scan is
insensitive to any extra fuel beyond `code.length` loop steps — the
finditer loop always terminates within `code.length` iterations. -/
theorem C8_totality : ∀ (code language : String) (d : Dialect),
    getDialect language = some d →
    (∃ cs, extract_comments code language = Except.ok cs) ∧
    extract_comments "" language = Except.ok [] ∧
    ∀ k, scanAux (dialectAlts d) (code.toList.length + k) 0 code.toList =
      scanMatches (dialectAlts d) 0 code.toList := by
  intro code language d h
  refine ⟨⟨(keepRegions (dialectAlts d) code.toList).map (sliceStr code),
    by simp [extract_comments, h]⟩, ?_, ?_⟩
  · simp only [extract_comments, h]
    rfl
  · intro k
    exact scanAux_congr (dialectAlts d) (code.toList.length + k) code.toList.length 0
      code.toList (by omega) (le_refl _)

/-- Witness for C8 at dialect `go` on the unterminated input `/* x`. -/
theorem C8_totality_witness :
    getDialect "go" = some Dialect.jsgo ∧
    extract_comments "" "go" = Except.ok [] ∧
    scanAux (dialectAlts Dialect.jsgo) ("/* x".toList.length + 5) 0 ("/* x".toList) =
      scanMatches (dialectAlts Dialect.jsgo) 0 ("/* x".toList) :=
  ⟨by decide, (C8_totality "/* x" "go" Dialect.jsgo (by decide)).2.1,
    (C8_totality "/* x" "go" Dialect.jsgo (by decide)).2.2 5⟩

/-- Claim C4 (confirmed): for the Python dialect the strict single- and
double-quote skip rules refuse to match when the opening quote is
immediately followed by two more of the same quote, so they never
consume the opening of a triple-quoted block; consequently a
well-formed triple-quoted block at an offset the scanner reaches is
matched by the keep rules (no skip alternative fires there) and the
whole block, delimiters included, is recorded as a kept match.  For the
other dialects the quoted-string rules are unconditional: the
non-strict rule consumes the first two quotes of a triple as an empty
literal. -/
theorem C4_triple_quote_exclusion :
    ∀ (q : Char) (rest : List Char) (pos : Nat) (l : List Char) (n : Nat),
      matchQuoted q true (q :: q :: q :: rest) = none ∧
      matchQuoted q false (q :: q :: q :: rest) = some 2 ∧
      ((q = dqc ∨ q = sqc) → matchTriple q l = some n →
        firstMatch (dialectAlts Dialect.python) l = some (true, n) ∧
        scanMatches (dialectAlts Dialect.python) pos l =
          (true, pos, n) :: scanMatches (dialectAlts Dialect.python) (pos + n) (l.drop n)) := by
  intro q rest pos l n
  refine ⟨?_, ?_, ?_⟩
  · simp [matchQuoted, tripleAhead]
  · simp [matchQuoted, tripleAhead, quotedBody]
  · intro hq hmt
    have hb := matchTriple_bound q l n hmt
    obtain ⟨rest', rfl⟩ := matchTriple_shape q l n hmt
    have halts : dialectAlts Dialect.python =
        [(false, double_quotes_strict), (false, single_quotes_strict), (true, hash),
          (true, py_triple_double), (true, py_triple_single)] := rfl
    have hfm : firstMatch (dialectAlts Dialect.python) (q :: q :: q :: rest') =
        some (true, n) := by
      rcases hq with rfl | rfl
      · have e1 : double_quotes_strict (dqc :: dqc :: dqc :: rest') = none := by
          simp [double_quotes_strict, matchQuoted, tripleAhead]
        have e2 : single_quotes_strict (dqc :: dqc :: dqc :: rest') = none := by
          have hne : ¬ (dqc = sqc) := by decide
          simp [single_quotes_strict, matchQuoted, hne]
        have e3 : hash (dqc :: dqc :: dqc :: rest') = none := by
          have hne : (('#' : Char) == dqc) = false := by decide
          simp [hash, matchLine, List.isPrefixOf, hne]
        have e4 : py_triple_double (dqc :: dqc :: dqc :: rest') = some n := hmt
        rw [halts]
        simp only [firstMatch, e1, e2, e3, e4]
      · have e1 : double_quotes_strict (sqc :: sqc :: sqc :: rest') = none := by
          have hne : ¬ (sqc = dqc) := by decide
          simp [double_quotes_strict, matchQuoted, hne]
        have e2 : single_quotes_strict (sqc :: sqc :: sqc :: rest') = none := by
          simp [single_quotes_strict, matchQuoted, tripleAhead]
        have e3 : hash (sqc :: sqc :: sqc :: rest') = none := by
          have hne : (('#' : Char) == sqc) = false := by decide
          simp [hash, matchLine, List.isPrefixOf, hne]
        have e4 : py_triple_double (sqc :: sqc :: sqc :: rest') = none := by
          have hne : ¬ (sqc = dqc) := by decide
          simp [py_triple_double, matchTriple, hne]
        have e5 : py_triple_single (sqc :: sqc :: sqc :: rest') = some n := hmt
        rw [halts]
        simp only [firstMatch, e1, e2, e3, e4, e5]
    refine ⟨hfm, ?_⟩
    exact scanMatches_cons (dialectAlts Dialect.python) pos n q (q :: q :: rest') true
      (by omega) hfm

/-- Witness for C4 on the concrete Python docstring `"""d"""`. -/
theorem C4_triple_quote_exclusion_witness :
    matchQuoted dqc true (dqc :: dqc :: dqc :: ("x".toList)) = none ∧
    matchQuoted dqc false (dqc :: dqc :: dqc :: ("x".toList)) = some 2 ∧
    matchTriple dqc ("\"\"\"d\"\"\"".toList) = some 7 ∧
    firstMatch (dialectAlts Dialect.python) ("\"\"\"d\"\"\"".toList) = some (true, 7) ∧
    scanMatches (dialectAlts Dialect.python) 0 ("\"\"\"d\"\"\"".toList) =
      (true, 0, 7) :: scanMatches (dialectAlts Dialect.python) (0 + 7)
        (("\"\"\"d\"\"\"".toList).drop 7) :=
  ⟨(C4_triple_quote_exclusion dqc ("x".toList) 0 [] 0).1,
    (C4_triple_quote_exclusion dqc ("x".toList) 0 [] 0).2.1,
    by decide,
    ((C4_triple_quote_exclusion dqc [] 0 ("\"\"\"d\"\"\"".toList) 7).2.2 (Or.inl rfl)
      (by decide)).1,
    ((C4_triple_quote_exclusion dqc [] 0 ("\"\"\"d\"\"\"".toList) 7).2.2 (Or.inl rfl)
      (by decide)).2⟩

/-- Claim C5 (confirmed): at any offset where some skip (literal)
alternative matches, the combined pattern reports that skip match (skip
beats any keep alternative at the same offset), the scanner records it
and advances past it, every keep match starts only at or beyond the end
of that skip match (so no keep match at this offset is ever emitted),
and no match of the remaining scan starts before the current offset
(the earliest-starting match wins). -/
theorem C5_skip_priority : ∀ (d : Dialect) (pos : Nat) (l : List Char),
    (∃ m ∈ skippable d, (m l).isSome = true) →
    ∃ n, 1 ≤ n ∧ firstMatch (dialectAlts d) l = some (false, n) ∧
      scanMatches (dialectAlts d) pos l =
        (false, pos, n) :: scanMatches (dialectAlts d) (pos + n) (l.drop n) ∧
      ∀ r ∈ scanMatches (dialectAlts d) pos l,
        pos ≤ r.2.1 ∧ (r.1 = true → pos + n ≤ r.2.1) := by
  intro d pos l h
  obtain ⟨n, hfm⟩ :=
    firstMatch_append_skips (skippable d) ((keepable d).map (fun m => (true, m))) l h
  have hfm' : firstMatch (dialectAlts d) l = some (false, n) := hfm
  obtain ⟨a, ha, hak, hal⟩ := firstMatch_mem _ _ _ _ hfm'
  obtain ⟨hb1, hb2⟩ := alts_good d a ha l n hal
  have hl : l ≠ [] := by
    intro h0
    subst h0
    simp only [List.length_nil] at hb2
    omega
  obtain ⟨c, rest, rfl⟩ := List.exists_cons_of_ne_nil hl
  have hstep := scanMatches_cons (dialectAlts d) pos n c rest false (by omega) hfm'
  refine ⟨n, hb1, hfm', hstep, ?_⟩
  intro r hr
  rw [hstep] at hr
  rcases List.mem_cons.1 hr with rfl | hr'
  · refine ⟨le_refl pos, ?_⟩
    intro hk
    simp at hk
  · have hr'' : r ∈ scanAux (dialectAlts d) (((c :: rest).drop n).length) (pos + n)
        ((c :: rest).drop n) := hr'
    have hs := scanAux_spec (dialectAlts d) (alts_good d) _ (pos + n) _ r hr''
    exact ⟨by omega, fun _ => hs.1⟩

/-- Witness for C5 on the C input `"a"//b`: the double-quote literal
matches at offset 0 and wins over any comment rule. -/
theorem C5_skip_priority_witness :
    (∃ m ∈ skippable Dialect.cstyle, (m ("\"a\"//b".toList)).isSome = true) ∧
    (∃ n, 1 ≤ n ∧ firstMatch (dialectAlts Dialect.cstyle) ("\"a\"//b".toList) =
        some (false, n) ∧
      scanMatches (dialectAlts Dialect.cstyle) 0 ("\"a\"//b".toList) =
        (false, 0, n) :: scanMatches (dialectAlts Dialect.cstyle) (0 + n)
          (("\"a\"//b".toList).drop n) ∧
      ∀ r ∈ scanMatches (dialectAlts Dialect.cstyle) 0 ("\"a\"//b".toList),
        0 ≤ r.2.1 ∧ (r.1 = true → 0 + n ≤ r.2.1)) := by
  have hyp : ∃ m ∈ skippable Dialect.cstyle, (m ("\"a\"//b".toList)).isSome = true :=
    ⟨double_quotes, List.mem_cons_self _ _, by decide⟩
  exact ⟨hyp, C5_skip_priority Dialect.cstyle 0 ("\"a\"//b".toList) hyp⟩

/-- Claim C1 (counterexample): the claim quantifies over every
well-formed literal occurring anywhere in the input; the double-quoted
literal `"a//b"` is well-formed per the C++ skip rule and contains the
comment starter `//` as plain content, it occurs in the input
`// "a//b"`, yet the extractor emits the comment `// "a//b"`, which
contains the entire literal as a substring — the literal starts inside
a comment, so its characters do end up in an emitted comment. -/
theorem C1_counterexample :
    matchQuoted dqc false ("\"a//b\"".toList) = some 6 ∧
    ['/', '/'] <:+: ("a//b".toList) ∧
    ("\"a//b\"".toList) <:+: ("// \"a//b\"".toList) ∧
    extract_comments "// \"a//b\"" "c++" = Except.ok ["// \"a//b\""] :=
  ⟨by decide, by decide, by decide, rfl⟩

/-- Claim C1 (corrected): restricted to literals the scan actually
matches — whenever the scan records a skip match (a literal region),
that region is disjoint from every kept (comment) region, so no
character of such a literal appears in, or contributes to, any string
of the returned list; the returned strings are exactly the kept
regions' texts. -/
theorem C1_string_safety : ∀ (language : String) (d : Dialect) (code : String),
    getDialect language = some d →
    ∀ r1 ∈ scanMatches (dialectAlts d) 0 code.toList, r1.1 = false →
    ∀ r2 ∈ scanMatches (dialectAlts d) 0 code.toList, r2.1 = true →
    (r1.2.1 + r1.2.2 ≤ r2.2.1 ∨ r2.2.1 + r2.2.2 ≤ r1.2.1) ∧
    extract_comments code language =
      Except.ok ((keepRegions (dialectAlts d) code.toList).map (sliceStr code)) := by
  intro language d code hlang r1 h1 hk1 r2 h2 hk2
  constructor
  · have hp : (scanMatches (dialectAlts d) 0 code.toList).Pairwise
        (fun a b => a.2.1 + a.2.2 ≤ b.2.1) :=
      scanAux_pairwise (dialectAlts d) (alts_good d) _ 0 code.toList
    have hsym : (scanMatches (dialectAlts d) 0 code.toList).Pairwise
        (fun a b : Bool × Nat × Nat =>
          a.2.1 + a.2.2 ≤ b.2.1 ∨ b.2.1 + b.2.2 ≤ a.2.1) :=
      hp.imp (fun h => Or.inl h)
    have hne : r1 ≠ r2 := by
      intro he
      rw [he, hk2] at hk1
      exact absurd hk1 (by simp)
    exact hsym.forall (fun a b h => h.elim Or.inr Or.inl) h1 h2 hne
  · simp [extract_comments, hlang]

/-- Witness for the corrected C1 on the C input `"a#" // x`: the
literal `"a#"` is skip-matched at offset 0 and the emitted comment
`// x` occupies offsets 5–8, disjoint from it. -/
theorem C1_string_safety_witness :
    getDialect "c" = some Dialect.cstyle ∧
    (false, 0, 4) ∈ scanMatches (dialectAlts Dialect.cstyle) 0 ("\"a#\" // x".toList) ∧
    (true, 5, 4) ∈ scanMatches (dialectAlts Dialect.cstyle) 0 ("\"a#\" // x".toList) ∧
    ((0 + 4 ≤ 5 ∨ 5 + 4 ≤ 0) ∧
      extract_comments "\"a#\" // x" "c" =
        Except.ok ((keepRegions (dialectAlts Dialect.cstyle) ("\"a#\" // x".toList)).map
          (sliceStr "\"a#\" // x"))) :=
  ⟨by decide, by decide, by decide,
    C1_string_safety "c" Dialect.cstyle "\"a#\" // x" (by decide) (false, 0, 4) (by decide)
      rfl (true, 5, 4) (by decide) rfl⟩

/-- Claim C10 (confirmed): on success the returned strings are exactly
the texts of the kept regions, in order; every kept region is
non-empty, lies within the input, and its text begins with one of the
dialect's comment start tokens; the kept regions are pairwise disjoint
and listed in strictly increasing start order; and every returned
string is non-empty. -/
theorem C10_output_shape : ∀ (code language : String) (d : Dialect) (cs : List String),
    getDialect language = some d →
    extract_comments code language = Except.ok cs →
    cs = (keepRegions (dialectAlts d) code.toList).map (sliceStr code) ∧
    (∀ r ∈ keepRegions (dialectAlts d) code.toList,
      1 ≤ r.2 ∧ r.1 + r.2 ≤ code.toList.length ∧
      ∃ tok ∈ keepTokens d, tok <+: (code.toList.drop r.1).take r.2) ∧
    (keepRegions (dialectAlts d) code.toList).Pairwise
      (fun a b : Nat × Nat => a.1 + a.2 ≤ b.1) ∧
    (keepRegions (dialectAlts d) code.toList).Pairwise
      (fun a b : Nat × Nat => a.1 < b.1) ∧
    ∀ s ∈ cs, s ≠ "" := by
  intro code language d cs hlang hok
  have hcs : cs = (keepRegions (dialectAlts d) code.toList).map (sliceStr code) := by
    simp only [extract_comments, hlang, Except.ok.injEq] at hok
    exact hok.symm
  have hmem : ∀ r ∈ keepRegions (dialectAlts d) code.toList,
      1 ≤ r.2 ∧ r.1 + r.2 ≤ code.toList.length ∧
      ∃ tok ∈ keepTokens d, tok <+: (code.toList.drop r.1).take r.2 := by
    intro r hr
    simp only [keepRegions] at hr
    obtain ⟨e, he, hfe⟩ := List.mem_filterMap.1 hr
    by_cases hk : e.1 = true
    · rw [if_pos hk] at hfe
      simp only [Option.some.injEq] at hfe
      have he' : e ∈ scanAux (dialectAlts d) code.toList.length 0 code.toList := he
      obtain ⟨hs1, hs2, hs3, hs4⟩ := scanAux_spec (dialectAlts d) (alts_good d) _ 0 _ e he'
      rw [Nat.sub_zero] at hs4
      obtain ⟨a, ha, hak, hal⟩ := firstMatch_mem _ _ _ _ hs4
      rw [dialectAlts] at ha
      rcases List.mem_append.1 ha with hskip | hkeep
      · obtain ⟨m, hm, rfl⟩ := List.mem_map.1 hskip
        rw [hk] at hak
        exact absurd hak (by simp)
      · obtain ⟨m, hm, rfl⟩ := List.mem_map.1 hkeep
        have htok := keepable_tok d m hm _ _ hal
        rw [← hfe]
        exact ⟨hs3, by omega, htok⟩
    · rw [if_neg hk] at hfe
      simp at hfe
  have hp1 : (keepRegions (dialectAlts d) code.toList).Pairwise
      (fun a b : Nat × Nat => a.1 + a.2 ≤ b.1) := by
    simp only [keepRegions]
    refine pairwise_filterMap _ ?_ _
      (scanAux_pairwise (dialectAlts d) (alts_good d) _ 0 code.toList)
    intro a b hab x hx y hy
    by_cases hka : a.1 = true
    · rw [if_pos hka] at hx
      by_cases hkb : b.1 = true
      · rw [if_pos hkb] at hy
        simp only [Option.some.injEq] at hx hy
        rw [← hx, ← hy]
        exact hab
      · rw [if_neg hkb] at hy
        simp at hy
    · rw [if_neg hka] at hx
      simp at hx
  have hp2 : (keepRegions (dialectAlts d) code.toList).Pairwise
      (fun a b : Nat × Nat => a.1 < b.1) := by
    refine List.Pairwise.imp_of_mem ?_ hp1
    intro a b ha hb hab
    have h1 := (hmem a ha).1
    omega
  refine ⟨hcs, hmem, hp1, hp2, ?_⟩
  intro s hs
  rw [hcs] at hs
  obtain ⟨r, hr, rfl⟩ := List.mem_map.1 hs
  obtain ⟨hm1, hm2, -⟩ := hmem r hr
  intro hcon
  have hdata : (code.toList.drop r.1).take r.2 = ([] : List Char) :=
    congrArg String.data hcon
  have hlen := congrArg List.length hdata
  simp only [List.length_take, List.length_drop, List.length_nil] at hlen
  omega

/-- Witness for C10 on the PHP input `# a`. -/
theorem C10_output_shape_witness :
    getDialect "php" = some Dialect.php ∧
    extract_comments "# a" "php" = Except.ok ["# a"] ∧
    (["# a"] = (keepRegions (dialectAlts Dialect.php) ("# a".toList)).map (sliceStr "# a") ∧
      (∀ r ∈ keepRegions (dialectAlts Dialect.php) ("# a".toList),
        1 ≤ r.2 ∧ r.1 + r.2 ≤ ("# a".toList).length ∧
        ∃ tok ∈ keepTokens Dialect.php, tok <+: (("# a".toList).drop r.1).take r.2) ∧
      (keepRegions (dialectAlts Dialect.php) ("# a".toList)).Pairwise
        (fun a b : Nat × Nat => a.1 + a.2 ≤ b.1) ∧
      (keepRegions (dialectAlts Dialect.php) ("# a".toList)).Pairwise
        (fun a b : Nat × Nat => a.1 < b.1) ∧
      ∀ s ∈ ["# a"], s ≠ "") :=
  ⟨by decide, rfl, C10_output_shape "# a" "php" Dialect.php ["# a"] (by decide) rfl⟩

end CommentParsing
